import Mathlib

/-!
# Verification of the Text Editor's text-transformation core

Shallow embedding of `src/Text-Editor/TextEditor.py`:

* `correct_spelling`  — spelling correction over whitespace-delimited segments,
  with the regex `([!.,;?]*)(\w+)([!.,;?]*)` tokenizer (`findall`) and the
  first-letter capitalization rule;
* `paraphrase_sentence` — adjective paraphrasing via part-of-speech tags and
  adjective-restricted synonym sets;
* `update_paraphrase` — the "Paraphrase" button handler acting on the three
  text widgets.

External collaborators (the spell-checking engine, the tokenizer, the
part-of-speech tagger and the synonym database) are abstract parameters,
bundled in the `NLP` structure.  Python exceptions are modelled with `Except`:
an `.error` value is an uncaught exception propagating out of the handler.
Character classes model the ASCII fragment of Python's `\w`, `str.split`,
`str.isupper` and `str.capitalize` semantics.
-/

namespace TextEditor

/-! ## Character classes (ASCII fragment, by code point) -/

/-- Python `\s` / `str.split()` whitespace: space, tab, LF, CR, VT, FF. -/
def pyIsSpace (c : Char) : Bool :=
  decide (c.toNat = 32 ∨ c.toNat = 9 ∨ c.toNat = 10 ∨ c.toNat = 13 ∨
          c.toNat = 11 ∨ c.toNat = 12)

/-- The punctuation class `[!.,;?]` of the correction tokenizer:
`!` 33, `.` 46, `,` 44, `;` 59, `?` 63. -/
def isPunct (c : Char) : Bool :=
  decide (c.toNat = 33 ∨ c.toNat = 46 ∨ c.toNat = 44 ∨ c.toNat = 59 ∨ c.toNat = 63)

/-- Python `\w` (ASCII fragment): letters, digits, underscore (95). -/
def isWordChar (c : Char) : Bool :=
  decide ((97 ≤ c.toNat ∧ c.toNat ≤ 122) ∨ (65 ≤ c.toNat ∧ c.toNat ≤ 90) ∨
          (48 ≤ c.toNat ∧ c.toNat ≤ 57) ∨ c.toNat = 95)

/-- Python `str.isupper` on a single character (ASCII): `A`–`Z`. -/
def isUpperChar (c : Char) : Bool :=
  decide (65 ≤ c.toNat ∧ c.toNat ≤ 90)

/-- An ASCII letter. -/
def isAsciiLetter (c : Char) : Bool :=
  decide ((97 ≤ c.toNat ∧ c.toNat ≤ 122) ∨ (65 ≤ c.toNat ∧ c.toNat ≤ 90))

/-- The class `[?.!,:;"]` of the space-removal regex in `paraphrase_sentence`:
`?` 63, `.` 46, `!` 33, `,` 44, `:` 58, `;` 59, `"` 34. -/
def isSentPunct (c : Char) : Bool :=
  decide (c.toNat = 63 ∨ c.toNat = 46 ∨ c.toNat = 33 ∨ c.toNat = 44 ∨
          c.toNat = 58 ∨ c.toNat = 59 ∨ c.toNat = 34)

/-! ## Python string primitives -/

/-- Python `str.split()` (no separator): split on whitespace runs, dropping
empty segments.  Fuel-driven so that it reduces in the kernel; the wrapper
`pySplit` supplies sufficient fuel. -/
def pySplitF : Nat → List Char → List (List Char)
  | 0, _ => []
  | _ + 1, [] => []
  | f + 1, c :: cs =>
    if pyIsSpace c then pySplitF f cs
    else (c :: cs.takeWhile (fun d => !pyIsSpace d)) ::
      pySplitF f (cs.dropWhile (fun d => !pyIsSpace d))

def pySplit (l : List Char) : List (List Char) := pySplitF (l.length + 1) l

/-- Python `str.capitalize`: first character uppercased, all others
lowercased (ASCII fragment; core `Char.toUpper`/`Char.toLower` are exactly
the ASCII maps). -/
def pyCapitalize : List Char → List Char
  | [] => []
  | c :: rest => Char.toUpper c :: rest.map Char.toLower

/-- Python `word[0].isupper()`; the word is never empty where this is used. -/
def firstUpper (w : List Char) : Bool :=
  match w with
  | [] => false
  | c :: _ => isUpperChar c

/-- `' '.join(tokens)`. -/
def joinSpace : List (List Char) → List Char
  | [] => []
  | [t] => t
  | t :: ts => t ++ ' ' :: joinSpace ts

/-! ## The correction tokenizer: `re.findall(r'([!.,;?]*)(\w+)([!.,;?]*)', segment)`

The regex engine scans left to right; at each position it tries a greedy
run of `[!.,;?]`, then at least one `\w`, then a greedy run of `[!.,;?]`.
On success it records the three groups and resumes after the match
(non-overlapping); on failure it advances one character.  Fuel-driven
(each step consumes one unit and at least one character), wrapped by
`findall` with sufficient fuel. -/
def findallF : Nat → List Char → List (List Char × List Char × List Char)
  | 0, _ => []
  | f + 1, l =>
    let r1 := l.dropWhile isPunct
    if isWordChar (r1.headD ' ') then
      let r2 := r1.dropWhile isWordChar
      (l.takeWhile isPunct, r1.takeWhile isWordChar, r2.takeWhile isPunct) ::
        findallF f (r2.dropWhile isPunct)
    else if r1.isEmpty then []
    else findallF f l.tail

def findall (l : List Char) : List (List Char × List Char × List Char) :=
  findallF (l.length + 1) l

/-! ## Spelling correction (`correct_spelling` in the source)

The engine `corr` models `spell.correction`: `none` is the Python `None`
returned when the engine finds no correction.  The source has no fallback
for that case: with a capitalized word, `None.capitalize()` raises
`AttributeError` (modelled as `.error ()`); otherwise the f-string renders
the literal text `None` into the output. -/

/-- `corrected_word = spell.correction(word)` followed by
`if word[0].isupper(): corrected_word = corrected_word.capitalize()`. -/
def corrected_word (corr : List Char → Option (List Char)) (w : List Char) :
    Option (List Char) :=
  (corr w).map (fun c => if firstUpper w then pyCapitalize c else c)

/-- `.data` of the Python string `"None"`. -/
def noneStr : List Char := ['N', 'o', 'n', 'e']

/-- One iteration of the inner loop of `correct_spelling`: build
`f'{pre_punct}{corrected_word}{post_punct}'` for one tokenizer match. -/
def correct_token (corr : List Char → Option (List Char))
    (pre w post : List Char) : Except Unit (List Char) :=
  match corrected_word corr w with
  | some cw => .ok (pre ++ cw ++ post)
  | none =>
    if firstUpper w then .error () -- None.capitalize() raises AttributeError
    else .ok (pre ++ noneStr ++ post) -- f-string renders None as "None"

/-- The loop over all tokenizer matches; a raised exception aborts the run. -/
def correct_tokens (corr : List Char → Option (List Char)) :
    List (List Char × List Char × List Char) → Except Unit (List (List Char))
  | [] => .ok []
  | t :: ts => do
    let c ← correct_token corr t.1 t.2.1 t.2.2
    let rest ← correct_tokens corr ts
    pure (c :: rest)

/-- `correct_spelling(text)`: split on whitespace, tokenize each segment with
`findall`, correct each token, join the results with single spaces. -/
def correct_spelling (corr : List Char → Option (List Char)) (text : List Char) :
    Except Unit (List Char) :=
  (correct_tokens corr ((pySplit text).flatMap findall)).map joinSpace

/-! ## Paraphrasing (`paraphrase_sentence` in the source)

`word_tokenize`, `pos_tag`, the WordNet adjective-synonym lookup
(`set` of all lemma names over `wordnet.synsets(word, pos='a')`), the
random choice over a listing of a Python set, and the spelling engine are
abstract parameters, bundled here. -/
structure NLP where
  word_tokenize : String → List String
  pos_tag : List String → List (String × String)
  /-- The set of lemma names over `wordnet.synsets(word, pos='a')`. -/
  syns : String → Finset String
  /-- `random.choice(list(s))` for a nonempty Python set `s`. -/
  pick : Finset String → String
  /-- `spell.correction`, as in `correct_spelling`. -/
  correction : List Char → Option (List Char)

/-- The body of the loop of `paraphrase_sentence` for one tagged token:
adjectives (`'JJ'`) with more than one synonym are replaced by a random
choice from the synonym set minus the original word; every other token is
kept. -/
def subst_token (nlp : NLP) (word pos : String) : String :=
  if pos = "JJ" then
    let synonyms := nlp.syns word
    if 1 < synonyms.card then nlp.pick (synonyms.erase word)
    else word
  else word

/-- The `paraphrased_words` list built by `paraphrase_sentence`. -/
def paraphrased_words (nlp : NLP) (sentence : String) : List String :=
  (nlp.pos_tag (nlp.word_tokenize sentence)).map (fun wp => subst_token nlp wp.1 wp.2)

/-- `re.sub(r'\s([?.!,:;"](?:\s|$))', r'\1', s)`: remove the whitespace
character before a sentence punctuation mark that is followed by whitespace
or the end of the string.  The scan is non-overlapping: a successful match
consumes its trailing whitespace.  Fuel-driven; wrapped by `fixSpaces`. -/
def fixSpacesF : Nat → List Char → List Char
  | 0, l => l
  | _ + 1, [] => []
  | f + 1, c :: rest =>
    if pyIsSpace c then
      match rest with
      | [] => [c]
      | p :: rest2 =>
        if isSentPunct p then
          match rest2 with
          | [] => [p]
          | d :: rest3 =>
            if pyIsSpace d then p :: d :: fixSpacesF f rest3
            else c :: fixSpacesF f rest
        else c :: fixSpacesF f rest
    else c :: fixSpacesF f rest

def fixSpaces (l : List Char) : List Char := fixSpacesF (l.length + 1) l

/-- `paraphrase_sentence(sentence)`: substitute adjectives, join with single
spaces, then remove spaces before sentence punctuation. -/
def paraphrase_sentence (nlp : NLP) (sentence : String) : String :=
  String.mk (fixSpaces (joinSpace ((paraphrased_words nlp sentence).map String.data)))

/-! ## The "Paraphrase" button handler (`update_paraphrase` in the source) -/

/-- The three text widgets and the selection of the corrected widget.
A selection is modelled by the decomposition it induces on the corrected
widget's contents: the text before it, the selected text, and the text
after it (`None` when no text is selected, in which case the Tk selection
lookup raises `TclError` and the handler returns at once). -/
structure EditorState where
  originalText : String
  correctedText : String
  paraphraseText : String
  selection : Option (String × String × String)
  deriving DecidableEq, Repr

/-- Python `str.split()` on a `String`. -/
def pySplitS (s : String) : List String := (pySplit s.data).map String.mk

/-- The `zip(words_original, words_paraphrased, words_corrected)` loop body:
for each position the inserted word is the paraphrased one, and the
`"changed"` tag records whether it differs from the corrected one.  `zip`
stops at the shortest stream. -/
def middle_entries : List String → List String → List String →
    List (String × Bool)
  | _ :: os, p :: ps, c :: cs => (p, decide (p ≠ c)) :: middle_entries os ps cs
  | _, _, _ => []

/-- `update_paraphrase()`: no selection is a silent no-op; otherwise the
paraphrase widget is rebuilt as before-text, then each zipped paraphrased
word followed by a space, then the after-text.  `correct_spelling` runs
after the before-text was already written, so an exception raised by it
leaves the widget holding just the before-text (the `.error` state). -/
def update_paraphrase (nlp : NLP) (st : EditorState) :
    Except EditorState EditorState :=
  match st.selection with
  | none => .ok st
  | some (before, sel, after) =>
    let paraphrased := paraphrase_sentence nlp sel
    match correct_spelling nlp.correction sel.data with
    | .error _ => .error { st with paraphraseText := before }
    | .ok corrChars =>
      let wordsO := pySplitS sel
      let wordsP := pySplitS paraphrased
      let wordsC := (pySplit corrChars).map String.mk
      let middle := middle_entries wordsO wordsP wordsC
      .ok { st with
            paraphraseText :=
              before ++ String.join (middle.map (fun e => e.1 ++ " ")) ++ after }

/-! ## Concrete instances used to exercise the definitions -/

instance {ε α : Type} [DecidableEq ε] [DecidableEq α] : DecidableEq (Except ε α) :=
  fun a b =>
    match a, b with
    | .error e, .error f =>
      if h : e = f then .isTrue (by rw [h])
      else .isFalse (fun hh => by cases hh; exact h rfl)
    | .ok x, .ok y =>
      if h : x = y then .isTrue (by rw [h])
      else .isFalse (fun hh => by cases hh; exact h rfl)
    | .error _, .ok _ => .isFalse (fun hh => by cases hh)
    | .ok _, .error _ => .isFalse (fun hh => by cases hh)

/-- A concrete `NLP` instance: one adjective `"big"` with two synonyms not
containing it, every other word tagged `"NN"`; the engine corrects every
word to `"ok"`. -/
def nlpA : NLP where
  word_tokenize := fun s => pySplitS s
  pos_tag := fun ws => ws.map (fun w => (w, if w = "big" then "JJ" else "NN"))
  syns := fun w => if w = "big" then {"huge", "immense"} else ∅
  pick := fun s => if "huge" ∈ s then "huge" else ""
  correction := fun _ => some ['o', 'k']

/-- A concrete `NLP` instance whose adjective `"big"` has synonym set
`{"big", "large"}`: exactly one synonym besides the original word. -/
def nlpB : NLP where
  word_tokenize := fun s => pySplitS s
  pos_tag := fun ws => ws.map (fun w => (w, if w = "big" then "JJ" else "NN"))
  syns := fun w => if w = "big" then {"big", "large"} else ∅
  pick := fun s => if "large" ∈ s then "large" else ""
  correction := fun _ => some ['o', 'k']

/-- A concrete editor state with the words `old big` selected in the middle
of the corrected widget. -/
def stA : EditorState where
  originalText := "x old bigg y"
  correctedText := "x old big y"
  paraphraseText := ""
  selection := some ("x ", "old big", " y")

/-- A concrete editor state with no selection. -/
def stB : EditorState where
  originalText := "x old bigg y"
  correctedText := "x old big y"
  paraphraseText := "previous"
  selection := none

/-- The result of the paraphrase action on `stA` with `nlpA`. -/
def stA' : EditorState where
  originalText := "x old bigg y"
  correctedText := "x old big y"
  paraphraseText := "x old huge  y"
  selection := some ("x ", "old big", " y")

/-! ## Helper lemmas on characters -/

theorem toNat_ofNat_valid (n : Nat) (h : n < 55296) : (Char.ofNat n).toNat = n := by
  have hv : n.isValidChar := Or.inl h
  rw [Char.ofNat, dif_pos hv]
  simp [Char.ofNatAux, Char.toNat, UInt32.toNat]

theorem char_toUpper_eq (c : Char) :
    Char.toUpper c =
      if 97 ≤ c.toNat ∧ c.toNat ≤ 122 then Char.ofNat (c.toNat - 32) else c := rfl

theorem char_toLower_eq (c : Char) :
    Char.toLower c =
      if 65 ≤ c.toNat ∧ c.toNat ≤ 90 then Char.ofNat (c.toNat + 32) else c := rfl

theorem toNat_toUpper (c : Char) :
    (Char.toUpper c).toNat =
      if 97 ≤ c.toNat ∧ c.toNat ≤ 122 then c.toNat - 32 else c.toNat := by
  rw [char_toUpper_eq]
  split
  · next h => exact toNat_ofNat_valid _ (by omega)
  · rfl

theorem toNat_toLower (c : Char) :
    (Char.toLower c).toNat =
      if 65 ≤ c.toNat ∧ c.toNat ≤ 90 then c.toNat + 32 else c.toNat := by
  rw [char_toLower_eq]
  split
  · next h => exact toNat_ofNat_valid _ (by omega)
  · rfl

theorem isWordChar_toUpper {c : Char} (h : isWordChar c = true) :
    isWordChar (Char.toUpper c) = true := by
  simp only [isWordChar, decide_eq_true_eq] at h ⊢
  rw [toNat_toUpper]
  split <;> omega

theorem isWordChar_toLower {c : Char} (h : isWordChar c = true) :
    isWordChar (Char.toLower c) = true := by
  simp only [isWordChar, decide_eq_true_eq] at h ⊢
  rw [toNat_toLower]
  split <;> omega

theorem not_pyIsSpace_of_isWordChar {c : Char} (h : isWordChar c = true) :
    pyIsSpace c = false := by
  simp only [isWordChar, decide_eq_true_eq] at h
  simp only [pyIsSpace, decide_eq_false_iff_not]
  omega

theorem not_pyIsSpace_of_isPunct {c : Char} (h : isPunct c = true) :
    pyIsSpace c = false := by
  simp only [isPunct, decide_eq_true_eq] at h
  simp only [pyIsSpace, decide_eq_false_iff_not]
  omega

theorem not_isWordChar_of_isPunct {c : Char} (h : isPunct c = true) :
    isWordChar c = false := by
  simp only [isPunct, decide_eq_true_eq] at h
  simp only [isWordChar, decide_eq_false_iff_not]
  omega

theorem not_isPunct_of_isWordChar {c : Char} (h : isWordChar c = true) :
    isPunct c = false := by
  simp only [isWordChar, decide_eq_true_eq] at h
  simp only [isPunct, decide_eq_false_iff_not]
  omega

theorem ne_space_of_word_or_punct {c : Char}
    (h : isWordChar c = true ∨ isPunct c = true) : c ≠ ' ' := by
  rcases h with h | h <;> rintro rfl <;> simp [isWordChar, isPunct] at h

theorem isWordChar_space : isWordChar ' ' = false := by decide

/-! ## Helper lemmas on the tokenizers -/

theorem takeWhile_eq_nil_of_head {p : Char → Bool} (l : List Char)
    (h : ∀ c, l.head? = some c → p c = false) : l.takeWhile p = [] := by
  cases l with
  | nil => rfl
  | cons c cs => simp [List.takeWhile_cons, h c rfl]

theorem dropWhile_eq_self_of_head {p : Char → Bool} (l : List Char)
    (h : ∀ c, l.head? = some c → p c = false) : l.dropWhile p = l := by
  cases l with
  | nil => rfl
  | cons c cs => simp [List.dropWhile_cons, h c rfl]

theorem pySplitF_nil (f : Nat) : pySplitF f [] = [] := by
  cases f <;> rfl

theorem findallF_nil (f : Nat) : findallF f [] = [] := by
  cases f <;> rfl

/-- A nonempty whitespace-free string is a single segment for `str.split()`. -/
theorem pySplit_single (l : List Char) (hne : l ≠ [])
    (h : ∀ c ∈ l, pyIsSpace c = false) : pySplit l = [l] := by
  obtain ⟨c, cs, rfl⟩ := List.exists_cons_of_ne_nil hne
  show pySplitF (cs.length + 1 + 1) (c :: cs) = [c :: cs]
  rw [pySplitF]
  rw [if_neg (by rw [h c (List.mem_cons_self c cs)]; exact Bool.false_ne_true)]
  have htake : cs.takeWhile (fun d => !pyIsSpace d) = cs :=
    List.takeWhile_eq_self_iff.mpr fun d hd => by
      simp [h d (List.mem_cons_of_mem c hd)]
  have hdrop : cs.dropWhile (fun d => !pyIsSpace d) = [] :=
    List.dropWhile_eq_nil_iff.mpr fun d hd => by
      simp [h d (List.mem_cons_of_mem c hd)]
  rw [htake, hdrop, pySplitF_nil]

/-- On a segment of the shape punctuation-run, word, punctuation-run the
regex tokenizer returns exactly that decomposition. -/
theorem findallF_token (f : Nat) (p w s : List Char)
    (hp : ∀ c ∈ p, isPunct c = true) (hw : w ≠ [])
    (hww : ∀ c ∈ w, isWordChar c = true) (hs : ∀ c ∈ s, isPunct c = true) :
    findallF (f + 1) (p ++ w ++ s) = [(p, w, s)] := by
  obtain ⟨w0, wr, rfl⟩ := List.exists_cons_of_ne_nil hw
  have hw0 : isWordChar w0 = true := hww w0 (List.mem_cons_self w0 wr)
  have hpre : (p ++ (w0 :: wr) ++ s).takeWhile isPunct = p := by
    rw [List.append_assoc, List.takeWhile_append_of_pos hp,
      takeWhile_eq_nil_of_head _ (fun c hc => by
        rw [List.head?_append_of_ne_nil _ (by simp)] at hc
        simp only [List.head?_cons, Option.some.injEq] at hc
        rw [← hc]
        exact not_isPunct_of_isWordChar hw0),
      List.append_nil]
  have hdrop : (p ++ (w0 :: wr) ++ s).dropWhile isPunct = (w0 :: wr) ++ s := by
    rw [List.append_assoc, List.dropWhile_append_of_pos hp,
      dropWhile_eq_self_of_head _ (fun c hc => by
        rw [List.head?_append_of_ne_nil _ (by simp)] at hc
        simp only [List.head?_cons, Option.some.injEq] at hc
        rw [← hc]
        exact not_isPunct_of_isWordChar hw0)]
  have htakew : ((w0 :: wr) ++ s).takeWhile isWordChar = w0 :: wr := by
    rw [List.takeWhile_append_of_pos hww,
      takeWhile_eq_nil_of_head _ (fun c hc => by
        cases s with
        | nil => cases hc
        | cons s0 sr =>
          simp only [List.head?_cons, Option.some.injEq] at hc
          rw [← hc]
          exact not_isWordChar_of_isPunct (hs s0 (List.mem_cons_self s0 sr))),
      List.append_nil]
  have hdropw : ((w0 :: wr) ++ s).dropWhile isWordChar = s := by
    rw [List.dropWhile_append_of_pos hww,
      dropWhile_eq_self_of_head _ (fun c hc => by
        cases s with
        | nil => cases hc
        | cons s0 sr =>
          simp only [List.head?_cons, Option.some.injEq] at hc
          rw [← hc]
          exact not_isWordChar_of_isPunct (hs s0 (List.mem_cons_self s0 sr)))]
  rw [findallF]
  dsimp only
  rw [hdrop]
  simp only [List.cons_append, List.headD_cons, hw0, if_true]
  rw [← List.cons_append, htakew, hdropw, hpre,
    List.takeWhile_eq_self_iff.mpr hs, List.dropWhile_eq_nil_iff.mpr hs,
    findallF_nil]

/-- Every token produced by the regex tokenizer has punctuation-only
prefix and suffix and a nonempty word of word characters. -/
theorem findallF_inv (f : Nat) : ∀ (l : List Char),
    ∀ t ∈ findallF f l, (∀ x ∈ t.1, isPunct x = true) ∧ t.2.1 ≠ [] ∧
      (∀ x ∈ t.2.1, isWordChar x = true) ∧ (∀ x ∈ t.2.2, isPunct x = true) := by
  induction f with
  | zero => intro l t ht; cases ht
  | succ f ih =>
    intro l t ht
    rw [findallF] at ht
    dsimp only at ht
    cases hr : l.dropWhile isPunct with
    | nil => simp [hr, isWordChar_space] at ht
    | cons d ds =>
      rw [hr] at ht
      simp only [List.headD_cons] at ht
      by_cases hd : isWordChar d = true
      · rw [if_pos hd] at ht
        rcases List.mem_cons.mp ht with rfl | ht
        · refine ⟨fun x hx => List.mem_takeWhile_imp hx, ?_, ?_, ?_⟩
          · simp [List.takeWhile_cons, hd]
          · exact fun x hx => List.mem_takeWhile_imp hx
          · exact fun x hx => List.mem_takeWhile_imp hx
        · exact ih _ t ht
      · rw [if_neg hd] at ht
        simp only [List.isEmpty_cons, Bool.false_eq_true, if_false] at ht
        cases l with
        | nil => simp at hr
        | cons c cs => exact ih cs t ht

/-- A segment without any word character yields no tokenizer match. -/
theorem findallF_no_word (f : Nat) : ∀ (l : List Char),
    (∀ x ∈ l, isWordChar x = false) → findallF f l = [] := by
  induction f with
  | zero => intro l _; rfl
  | succ f ih =>
    intro l h
    rw [findallF]
    dsimp only
    cases hr : l.dropWhile isPunct with
    | nil => simp [hr, isWordChar_space]
    | cons d ds =>
      have hdl : d ∈ l :=
        (List.dropWhile_sublist isPunct).subset (hr ▸ List.mem_cons_self d ds)
      simp only [List.headD_cons]
      rw [if_neg (by rw [h d hdl]; exact Bool.false_ne_true)]
      simp only [List.isEmpty_cons, Bool.false_eq_true, if_false]
      cases l with
      | nil => exact findallF_nil f
      | cons c cs => exact ih cs fun x hx => h x (List.mem_cons_of_mem c hx)

/-! ## Helper lemmas on the correction pipeline -/

theorem pyCapitalize_word {c : List Char} (hw : ∀ x ∈ c, isWordChar x = true) :
    ∀ x ∈ pyCapitalize c, isWordChar x = true := by
  cases c with
  | nil => intro x hx; cases hx
  | cons hd tl =>
    intro x hx
    rcases List.mem_cons.mp hx with rfl | hx
    · exact isWordChar_toUpper (hw hd (List.mem_cons_self hd tl))
    · obtain ⟨y, hy, rfl⟩ := List.mem_map.mp hx
      exact isWordChar_toLower (hw y (List.mem_cons_of_mem hd hy))

theorem pyCapitalize_ne_nil {c : List Char} (h : c ≠ []) : pyCapitalize c ≠ [] := by
  cases c with
  | nil => exact absurd rfl h
  | cons hd tl => simp [pyCapitalize]

theorem body_word {w c : List Char} (hcw : ∀ x ∈ c, isWordChar x = true) :
    ∀ x ∈ (if firstUpper w then pyCapitalize c else c), isWordChar x = true := by
  split
  · exact pyCapitalize_word hcw
  · exact hcw

theorem body_ne_nil {w c : List Char} (h : c ≠ []) :
    (if firstUpper w then pyCapitalize c else c) ≠ [] := by
  split
  · exact pyCapitalize_ne_nil h
  · exact h

theorem correct_token_ok (corr : List Char → Option (List Char))
    (pre w post c : List Char) (hc : corr w = some c) :
    correct_token corr pre w post =
      .ok (pre ++ (if firstUpper w then pyCapitalize c else c) ++ post) := by
  unfold correct_token corrected_word
  rw [hc]
  rfl

theorem correct_tokens_classes (corr : List Char → Option (List Char))
    (hcorr : ∀ v, ∃ cv, corr v = some cv ∧ cv ≠ [] ∧ ∀ x ∈ cv, isWordChar x = true) :
    ∀ ts : List (List Char × List Char × List Char),
      (∀ t ∈ ts, (∀ x ∈ t.1, isPunct x = true) ∧ (∀ x ∈ t.2.2, isPunct x = true)) →
      ∃ outs, correct_tokens corr ts = .ok outs ∧
        ∀ o ∈ outs, o ≠ [] ∧ ∀ x ∈ o, isWordChar x = true ∨ isPunct x = true := by
  intro ts
  induction ts with
  | nil => exact fun _ => ⟨[], rfl, fun o ho => absurd ho (List.not_mem_nil o)⟩
  | cons t ts ih =>
    intro hts
    obtain ⟨cv, hcv, hcvne, hcvw⟩ := hcorr t.2.1
    obtain ⟨outs, houts, hcls⟩ := ih fun u hu => hts u (List.mem_cons_of_mem t hu)
    refine ⟨(t.1 ++ (if firstUpper t.2.1 then pyCapitalize cv else cv) ++ t.2.2)
        :: outs, ?_, ?_⟩
    · rw [correct_tokens, correct_token_ok corr t.1 t.2.1 t.2.2 cv hcv]
      rw [show ∀ (x : List Char) (g : List Char → Except Unit (List (List Char))),
          Except.ok x >>= g = g x from fun _ _ => rfl]
      rw [houts]
      rfl
    · intro o ho
      rcases List.mem_cons.mp ho with rfl | ho
      · refine ⟨?_, ?_⟩
        · intro he
          rcases List.append_eq_nil.mp he with ⟨he2, -⟩
          rcases List.append_eq_nil.mp he2 with ⟨-, he3⟩
          exact body_ne_nil hcvne he3
        · intro x hx
          rcases List.mem_append.mp hx with hx | hx
          · rcases List.mem_append.mp hx with hx | hx
            · exact Or.inr ((hts t (List.mem_cons_self t ts)).1 x hx)
            · exact Or.inl (body_word hcvw x hx)
          · exact Or.inr ((hts t (List.mem_cons_self t ts)).2 x hx)
      · exact hcls o ho

/-! ## C4: punctuation runs survive correction verbatim -/

/-- C4: a whitespace-delimited segment of the form punctuation-run `p`,
word `w`, punctuation-run `s` is tokenized as exactly `(p, w, s)`, and when
the engine returns a word-character correction `c` the corrected output for
that segment is `p`, then the case-adjusted correction, then `s`: the two
punctuation runs are byte-identical before and after correction and the
corrected body contains no punctuation. -/
theorem correct_spelling_preserves_punct (corr : List Char → Option (List Char))
    (p w s c : List Char)
    (hp : ∀ x ∈ p, isPunct x = true) (hw : w ≠ [])
    (hww : ∀ x ∈ w, isWordChar x = true) (hs : ∀ x ∈ s, isPunct x = true)
    (hc : corr w = some c) (hcne : c ≠ [])
    (hcw : ∀ x ∈ c, isWordChar x = true) :
    findall (p ++ w ++ s) = [(p, w, s)] ∧
    correct_spelling corr (p ++ w ++ s) =
      .ok (p ++ (if firstUpper w then pyCapitalize c else c) ++ s) ∧
    (if firstUpper w then pyCapitalize c else c) ≠ [] ∧
    (∀ x ∈ (if firstUpper w then pyCapitalize c else c), isWordChar x = true) := by
  have hfind : findall (p ++ w ++ s) = [(p, w, s)] :=
    findallF_token _ p w s hp hw hww hs
  have hne : p ++ w ++ s ≠ [] := by
    intro he
    rcases List.append_eq_nil.mp he with ⟨he2, -⟩
    rcases List.append_eq_nil.mp he2 with ⟨-, he3⟩
    exact hw he3
  have hnsp : ∀ x ∈ p ++ w ++ s, pyIsSpace x = false := by
    intro x hx
    rcases List.mem_append.mp hx with hx | hx
    · rcases List.mem_append.mp hx with hx | hx
      · exact not_pyIsSpace_of_isPunct (hp x hx)
      · exact not_pyIsSpace_of_isWordChar (hww x hx)
    · exact not_pyIsSpace_of_isPunct (hs x hx)
  refine ⟨hfind, ?_, body_ne_nil hcne, body_word hcw⟩
  unfold correct_spelling
  rw [pySplit_single _ hne hnsp]
  rw [show ([p ++ w ++ s] : List (List Char)).flatMap findall
      = findall (p ++ w ++ s) by simp]
  rw [hfind, correct_tokens, correct_token_ok corr p w s c hc]
  rw [show ∀ (x : List Char) (g : List Char → Except Unit (List (List Char))),
      Except.ok x >>= g = g x from fun _ _ => rfl]
  rw [correct_tokens]
  rfl

theorem correct_spelling_preserves_punct_witness :
    (∀ x ∈ "!.".data, isPunct x = true) ∧
    "Ths".data ≠ [] ∧
    (∀ x ∈ "Ths".data, isWordChar x = true) ∧
    (∀ x ∈ ",;?".data, isPunct x = true) ∧
    (fun (_ : List Char) => some "ok".data) "Ths".data = some "ok".data ∧
    "ok".data ≠ [] ∧
    (∀ x ∈ "ok".data, isWordChar x = true) ∧
    (findall ("!.".data ++ "Ths".data ++ ",;?".data) =
        [("!.".data, "Ths".data, ",;?".data)] ∧
      correct_spelling (fun _ => some "ok".data)
          ("!.".data ++ "Ths".data ++ ",;?".data) =
        .ok ("!.".data ++
          (if firstUpper "Ths".data then pyCapitalize "ok".data
            else "ok".data) ++ ",;?".data) ∧
      (if firstUpper "Ths".data then pyCapitalize "ok".data
        else "ok".data) ≠ [] ∧
      (∀ x ∈ (if firstUpper "Ths".data then pyCapitalize "ok".data
        else "ok".data), isWordChar x = true)) :=
  ⟨by decide, by decide, by decide, by decide, rfl, by decide, by decide,
    correct_spelling_preserves_punct (fun _ => some "ok".data)
      "!.".data "Ths".data ",;?".data "ok".data
      (by decide) (by decide) (by decide) (by decide) rfl (by decide) (by decide)⟩

/-! ## Helper lemmas on the joined output -/

theorem mem_joinSpace_classes (P : Char → Prop) :
    ∀ ts : List (List Char), (∀ t ∈ ts, ∀ x ∈ t, P x) →
      ∀ x ∈ joinSpace ts, P x ∨ x = ' ' := by
  intro ts
  induction ts with
  | nil => intro _ x hx; cases hx
  | cons t ts ih =>
    intro h x hx
    cases ts with
    | nil => exact Or.inl (h t (List.mem_cons_self t []) x hx)
    | cons t2 ts2 =>
      replace hx : x ∈ t ++ ' ' :: joinSpace (t2 :: ts2) := hx
      rcases List.mem_append.mp hx with hx | hx
      · exact Or.inl (h t (List.mem_cons_self t (t2 :: ts2)) x hx)
      · rcases List.mem_cons.mp hx with rfl | hx
        · exact Or.inr rfl
        · exact ih (fun u hu => h u (List.mem_cons_of_mem t hu)) x hx

theorem chain'_no_space_token (t : List Char) (h : ∀ x ∈ t, x ≠ ' ') :
    List.Chain' (fun a b : Char => ¬(a = ' ' ∧ b = ' ')) t := by
  induction t with
  | nil => exact List.chain'_nil
  | cons c cs ih =>
    rw [List.chain'_cons']
    exact ⟨fun y _ hand => (h c (List.mem_cons_self c cs)) hand.1,
      ih fun x hx => h x (List.mem_cons_of_mem c hx)⟩

theorem joinSpace_head?_eq (t : List Char) (ts : List (List Char)) (h : t ≠ []) :
    (joinSpace (t :: ts)).head? = t.head? := by
  cases ts with
  | nil => rfl
  | cons t2 ts2 => exact List.head?_append_of_ne_nil t h

/-- The joined output never holds two adjacent spaces when every token is
nonempty and space-free. -/
theorem chain'_joinSpace : ∀ ts : List (List Char),
    (∀ t ∈ ts, t ≠ []) → (∀ t ∈ ts, ∀ x ∈ t, x ≠ ' ') →
    List.Chain' (fun a b : Char => ¬(a = ' ' ∧ b = ' ')) (joinSpace ts) := by
  intro ts
  induction ts with
  | nil => intro _ _; exact List.chain'_nil
  | cons t ts ih =>
    intro hne hsp
    cases ts with
    | nil => exact chain'_no_space_token t (hsp t (List.mem_cons_self t []))
    | cons t2 ts2 =>
      show List.Chain' _ (t ++ ' ' :: joinSpace (t2 :: ts2))
      refine List.chain'_append.mpr
        ⟨chain'_no_space_token t (hsp t (List.mem_cons_self t (t2 :: ts2))),
          ?_, ?_⟩
      · rw [List.chain'_cons']
        refine ⟨?_, ih (fun u hu => hne u (List.mem_cons_of_mem t hu))
          (fun u hu => hsp u (List.mem_cons_of_mem t hu))⟩
        intro y hy hand
        have ht2 : t2 ∈ t :: t2 :: ts2 :=
          List.mem_cons_of_mem t (List.mem_cons_self t2 ts2)
        rw [joinSpace_head?_eq t2 ts2 (hne t2 ht2)] at hy
        have hyt2 : y ∈ t2 := by
          cases hc : t2 with
          | nil => rw [hc] at hy; cases hy
          | cons a as =>
            rw [hc] at hy
            simp only [List.head?_cons, Option.mem_def, Option.some.injEq] at hy
            rw [← hy]
            exact List.mem_cons_self a as
        exact (hsp t2 ht2 y hyt2) hand.2
      · intro x hx y hy hand
        exact (hsp t (List.mem_cons_self t (t2 :: ts2)) x
          (List.mem_of_mem_getLast? hx)) hand.1

/-! ## C9: the output alphabet of spelling correction -/

/-- C9: when the engine always produces a nonempty word-character
correction, the corrected output consists solely of word characters, the
punctuation marks `! . , ; ?`, and spaces, with no two adjacent spaces;
any character outside those classes is absent from the output; and a
whitespace-delimited segment without a word character produces no token at
all, dropping it from the output. -/
theorem correct_spelling_output_classes (corr : List Char → Option (List Char))
    (hcorr : ∀ v, ∃ cv, corr v = some cv ∧ cv ≠ [] ∧
      ∀ x ∈ cv, isWordChar x = true)
    (text : List Char) :
    ∃ out, correct_spelling corr text = .ok out ∧
      (∀ x ∈ out, isWordChar x = true ∨ isPunct x = true ∨ x = ' ') ∧
      List.Chain' (fun a b => ¬(a = ' ' ∧ b = ' ')) out ∧
      (∀ x : Char, isWordChar x = false → isPunct x = false → x ≠ ' ' →
        x ∉ out) ∧
      (∀ seg ∈ pySplit text, (∀ x ∈ seg, isWordChar x = false) →
        findall seg = []) := by
  have hts : ∀ t ∈ (pySplit text).flatMap findall,
      (∀ x ∈ t.1, isPunct x = true) ∧ (∀ x ∈ t.2.2, isPunct x = true) := by
    intro t ht
    obtain ⟨seg, hseg, htseg⟩ := List.mem_flatMap.mp ht
    have hinv := findallF_inv _ seg t htseg
    exact ⟨hinv.1, hinv.2.2.2⟩
  obtain ⟨outs, houts, hcls⟩ := correct_tokens_classes corr hcorr _ hts
  have hclasses : ∀ x ∈ joinSpace outs,
      isWordChar x = true ∨ isPunct x = true ∨ x = ' ' := by
    intro x hx
    rcases mem_joinSpace_classes (fun c => isWordChar c = true ∨ isPunct c = true)
      outs (fun u hu => (hcls u hu).2) x hx with h | h
    · rcases h with h | h
      · exact Or.inl h
      · exact Or.inr (Or.inl h)
    · exact Or.inr (Or.inr h)
  refine ⟨joinSpace outs, ?_, hclasses, ?_, ?_, ?_⟩
  · unfold correct_spelling
    rw [houts]
    rfl
  · exact chain'_joinSpace outs (fun u hu => (hcls u hu).1)
      (fun u hu x hx => ne_space_of_word_or_punct ((hcls u hu).2 x hx))
  · intro x hw hp hs hmem
    rcases hclasses x hmem with h | h | h
    · rw [hw] at h; cases h
    · rw [hp] at h; cases h
    · exact hs h
  · intro seg hseg hnw
    exact findallF_no_word _ seg hnw

theorem correct_spelling_output_classes_witness :
    (∀ v : List Char, ∃ cv,
      (fun (_ : List Char) => some "ok".data) v = some cv ∧ cv ≠ [] ∧
      ∀ x ∈ cv, isWordChar x = true) ∧
    (∃ out, correct_spelling (fun _ => some "ok".data) "Ths, (y) !!".data =
        .ok out ∧
      (∀ x ∈ out, isWordChar x = true ∨ isPunct x = true ∨ x = ' ') ∧
      List.Chain' (fun a b => ¬(a = ' ' ∧ b = ' ')) out ∧
      (∀ x : Char, isWordChar x = false → isPunct x = false → x ≠ ' ' →
        x ∉ out) ∧
      (∀ seg ∈ pySplit "Ths, (y) !!".data,
        (∀ x ∈ seg, isWordChar x = false) → findall seg = [])) :=
  ⟨fun _ => ⟨"ok".data, rfl, by decide, by decide⟩,
    correct_spelling_output_classes (fun _ => some "ok".data)
      (fun _ => ⟨"ok".data, rfl, by decide, by decide⟩) "Ths, (y) !!".data⟩

/-! ## Helper lemmas on sets and lists -/

/-- The random choice of `nlpA` is a member of every synonym-minus-original
set it is invoked on. -/
theorem nlpA_pick_valid (v : String) (hv : ((nlpA.syns v).erase v).Nonempty) :
    nlpA.pick ((nlpA.syns v).erase v) ∈ (nlpA.syns v).erase v := by
  by_cases h : v = "big"
  · subst h; decide
  · exfalso
    have he : nlpA.syns v = ∅ := by simp [nlpA, h]
    rw [he] at hv
    simp at hv

/-- The random choice of `nlpB` is a member of every synonym-minus-original
set it is invoked on. -/
theorem nlpB_pick_valid (v : String) (hv : ((nlpB.syns v).erase v).Nonempty) :
    nlpB.pick ((nlpB.syns v).erase v) ∈ (nlpB.syns v).erase v := by
  by_cases h : v = "big"
  · subst h; decide
  · exfalso
    have he : nlpB.syns v = ∅ := by simp [nlpB, h]
    rw [he] at hv
    simp at hv

theorem erase_nonempty_of_one_lt_card {s : Finset String} {w : String}
    (h : 1 < s.card) : (s.erase w).Nonempty := by
  by_cases hw : w ∈ s
  · have hc := Finset.card_erase_of_mem hw
    exact Finset.card_pos.mp (by omega)
  · rw [Finset.erase_eq_of_not_mem hw]
    exact Finset.card_pos.mp (by omega)

theorem middle_entries_map_fst (wo wp wc : List String) :
    (middle_entries wo wp wc).map Prod.fst =
      wp.take (min wo.length (min wp.length wc.length)) := by
  induction wo generalizing wp wc with
  | nil => simp [middle_entries]
  | cons o os ih =>
    cases wp with
    | nil => simp [middle_entries]
    | cons p ps =>
      cases wc with
      | nil => simp [middle_entries]
      | cons c cs =>
        simp only [middle_entries, List.map_cons, ih, List.length_cons]
        rw [Nat.succ_min_succ, Nat.succ_min_succ, List.take_succ_cons]

/-! ## C1: unknown-word handling in spelling correction -/

/-- C1: the spec requires that when the engine finds no correction
(`spell.correction` returns `None`) the original word is kept and no error
propagates.  The code has no such fallback: for a lowercase unknown word the
f-string renders the literal text `None`, and for a capitalized unknown word
`None.capitalize()` raises `AttributeError`.  This theorem evaluates the code
at those failing inputs. -/
theorem correct_spelling_unknown_word_divergence :
    correct_spelling (fun _ => none) "qzxv".data = .ok noneStr ∧
    noneStr ≠ "qzxv".data ∧
    correct_spelling (fun _ => none) "Qzxv".data = .error () := by
  refine ⟨by decide, by decide, by decide⟩

/-! ## C2: capitalization of corrected words -/

/-- C2 counterexample: for the capitalized word `"Xyz"` with engine
correction `"aBC"`, the corrected word is `"Abc"`.  The second character of
the engine's correction is uppercase `B` but comes out as lowercase `b`:
a character other than the first had its case changed by the correction
step, contrary to the claim. -/
theorem corrected_word_changes_interior_case :
    firstUpper "Xyz".data = true ∧
    corrected_word (fun _ => some "aBC".data) "Xyz".data = some "Abc".data ∧
    isUpperChar 'B' = true ∧ isUpperChar 'b' = false := by
  refine ⟨by decide, by decide, by decide, by decide⟩

/-- C2 (amended): if the original word's first character is uppercase and the
engine returns correction `c = hd :: tl`, the corrected word is Python
`c.capitalize()`: `hd` uppercased and every later character lowercased
(so characters after the first do not keep uppercase); when `hd` is an ASCII
letter, the corrected word's first character is uppercase. -/
theorem corrected_word_capitalizes (corr : List Char → Option (List Char))
    (w c : List Char) (hd : Char) (tl : List Char)
    (hup : firstUpper w = true) (hc : corr w = some c) (hcons : c = hd :: tl) :
    corrected_word corr w = some (Char.toUpper hd :: tl.map Char.toLower) ∧
    (isAsciiLetter hd = true → isUpperChar (Char.toUpper hd) = true) := by
  constructor
  · simp [corrected_word, hc, hup, hcons, pyCapitalize]
  · intro hl
    simp only [isAsciiLetter, decide_eq_true_eq] at hl
    simp only [isUpperChar, decide_eq_true_eq]
    rw [toNat_toUpper]
    split <;> omega

theorem corrected_word_capitalizes_witness :
    firstUpper "Xyz".data = true ∧
    (fun (_ : List Char) => some "aBC".data) "Xyz".data = some "aBC".data ∧
    "aBC".data = 'a' :: "BC".data ∧
    (corrected_word (fun _ => some "aBC".data) "Xyz".data =
        some (Char.toUpper 'a' :: "BC".data.map Char.toLower) ∧
      (isAsciiLetter 'a' = true → isUpperChar (Char.toUpper 'a') = true)) :=
  ⟨by decide, rfl, by decide,
    corrected_word_capitalizes (fun _ => some "aBC".data) "Xyz".data "aBC".data
      'a' "BC".data (by decide) rfl (by decide)⟩

/-! ## C3: when an adjective is substituted -/

/-- C3 counterexample: in `nlpB`, the adjective `"big"` has synonym set
`{"big", "large"}`, so exactly one synonym exists besides the original word;
the claim then demands that the original token be kept, but the code
substitutes `"large"` (the set's size including the original is above one). -/
theorem paraphrase_substitutes_single_excluded_synonym :
    paraphrased_words nlpB "big" = ["large"] ∧
    ("large" : String) ≠ "big" ∧
    ((nlpB.syns "big").erase "big").card = 1 := by
  refine ⟨by decide, by decide, by decide⟩

/-- C3 (amended): an adjective token is substituted iff its
adjective-restricted synonym set — counting the original word when present —
has more than one element; when it is, the replacement is the random choice
drawn from that set minus the original word (hence a member of the excluded
set), and otherwise the token is kept. -/
theorem paraphrase_substitution_condition (nlp : NLP)
    (hpick : ∀ v : String, ((nlp.syns v).erase v).Nonempty →
      nlp.pick ((nlp.syns v).erase v) ∈ (nlp.syns v).erase v)
    (s : String) (i : Nat) (w pos out : String)
    (h : (nlp.pos_tag (nlp.word_tokenize s))[i]? = some (w, pos))
    (hpos : pos = "JJ")
    (hout : (paraphrased_words nlp s)[i]? = some out) :
    (out ≠ w ↔ 1 < (nlp.syns w).card) ∧
    (1 < (nlp.syns w).card →
      out = nlp.pick ((nlp.syns w).erase w) ∧ out ∈ (nlp.syns w).erase w) := by
  unfold paraphrased_words at hout
  rw [List.getElem?_map, h] at hout
  simp only [Option.map_some'] at hout
  injection hout with hout
  rw [subst_token, if_pos hpos] at hout
  by_cases hcard : 1 < (nlp.syns w).card
  · rw [if_pos hcard] at hout
    have hmem : nlp.pick ((nlp.syns w).erase w) ∈ (nlp.syns w).erase w :=
      hpick w (erase_nonempty_of_one_lt_card hcard)
    rw [hout] at hmem
    refine ⟨⟨fun _ => hcard, fun _ => ?_⟩, fun _ => ⟨hout.symm, hmem⟩⟩
    exact Finset.ne_of_mem_erase hmem
  · rw [if_neg hcard] at hout
    exact ⟨⟨fun hne => absurd hout.symm hne, fun hc => absurd hc hcard⟩,
      fun hc => absurd hc hcard⟩

theorem paraphrase_substitution_condition_witness :
    (nlpB.pos_tag (nlpB.word_tokenize "big"))[0]? = some ("big", "JJ") ∧
    (paraphrased_words nlpB "big")[0]? = some "large" ∧
    ((("large" : String) ≠ "big" ↔ 1 < (nlpB.syns "big").card) ∧
      (1 < (nlpB.syns "big").card →
        ("large" : String) = nlpB.pick ((nlpB.syns "big").erase "big") ∧
        ("large" : String) ∈ (nlpB.syns "big").erase "big")) :=
  ⟨by decide, by decide,
    paraphrase_substitution_condition nlpB nlpB_pick_valid
      "big" 0 "big" "JJ" "large" (by decide) rfl (by decide)⟩

/-! ## C5: non-adjective tokens pass through unchanged -/

/-- C5: a token whose part-of-speech tag is not `'JJ'` is emitted unchanged
at the same position of the paraphrased word list. -/
theorem paraphrase_keeps_non_adjectives (nlp : NLP) (s : String) (i : Nat)
    (w pos : String)
    (h : (nlp.pos_tag (nlp.word_tokenize s))[i]? = some (w, pos))
    (hpos : pos ≠ "JJ") :
    (paraphrased_words nlp s)[i]? = some w := by
  unfold paraphrased_words
  rw [List.getElem?_map, h]
  simp [subst_token, hpos]

theorem paraphrase_keeps_non_adjectives_witness :
    (nlpA.pos_tag (nlpA.word_tokenize "old big"))[0]? = some ("old", "NN") ∧
    ("NN" : String) ≠ "JJ" ∧
    (paraphrased_words nlpA "old big")[0]? = some "old" :=
  ⟨by decide, by decide,
    paraphrase_keeps_non_adjectives nlpA "old big" 0 "old" "NN"
      (by decide) (by decide)⟩

/-! ## C6: altered tokens come from the synonym set minus the original -/

/-- C6: under a valid random choice, any token the paraphraser alters is a
member of the adjective-restricted synonym set of the original token with
the original word removed. -/
theorem paraphrase_altered_in_synonyms (nlp : NLP)
    (hpick : ∀ v : String, ((nlp.syns v).erase v).Nonempty →
      nlp.pick ((nlp.syns v).erase v) ∈ (nlp.syns v).erase v)
    (s : String) (i : Nat) (w pos out : String)
    (h : (nlp.pos_tag (nlp.word_tokenize s))[i]? = some (w, pos))
    (hout : (paraphrased_words nlp s)[i]? = some out)
    (hne : out ≠ w) :
    out ∈ (nlp.syns w).erase w := by
  unfold paraphrased_words at hout
  rw [List.getElem?_map, h] at hout
  simp only [Option.map_some'] at hout
  injection hout with hout
  rw [subst_token] at hout
  by_cases hpos : pos = "JJ"
  · rw [if_pos hpos] at hout
    by_cases hcard : 1 < (nlp.syns w).card
    · rw [if_pos hcard] at hout
      rw [← hout]
      exact hpick w (erase_nonempty_of_one_lt_card hcard)
    · rw [if_neg hcard] at hout
      exact absurd hout.symm hne
  · rw [if_neg hpos] at hout
    exact absurd hout.symm hne

theorem paraphrase_altered_in_synonyms_witness :
    (nlpA.pos_tag (nlpA.word_tokenize "big"))[0]? = some ("big", "JJ") ∧
    (paraphrased_words nlpA "big")[0]? = some "huge" ∧
    ("huge" : String) ≠ "big" ∧
    ("huge" : String) ∈ (nlpA.syns "big").erase "big" :=
  ⟨by decide, by decide, by decide,
    paraphrase_altered_in_synonyms nlpA nlpA_pick_valid
      "big" 0 "big" "JJ" "huge" (by decide) (by decide) (by decide)⟩

/-! ## C7: positional comparison and silent truncation in the handler -/

/-- C7: with a selection and a successful correction run, the paraphrase
widget's middle section is built from the position-wise zip of the original,
paraphrased and corrected word streams of the selected span; the words kept
are exactly the paraphrased stream truncated to the shortest of the three
stream lengths, so the trailing words of any longer stream are silently
dropped. -/
theorem update_paraphrase_truncates (nlp : NLP) (st : EditorState)
    (b sel a : String) (corrChars : List Char)
    (hsel : st.selection = some (b, sel, a))
    (hc : correct_spelling nlp.correction sel.data = .ok corrChars) :
    update_paraphrase nlp st =
      .ok { st with
            paraphraseText :=
              b ++ String.join ((middle_entries (pySplitS sel)
                  (pySplitS (paraphrase_sentence nlp sel))
                  ((pySplit corrChars).map String.mk)).map
                (fun e => e.1 ++ " ")) ++ a } ∧
    (middle_entries (pySplitS sel) (pySplitS (paraphrase_sentence nlp sel))
        ((pySplit corrChars).map String.mk)).map Prod.fst =
      (pySplitS (paraphrase_sentence nlp sel)).take
        (min (pySplitS sel).length
          (min (pySplitS (paraphrase_sentence nlp sel)).length
            ((pySplit corrChars).map String.mk).length)) := by
  refine ⟨?_, middle_entries_map_fst _ _ _⟩
  unfold update_paraphrase
  rw [hsel]
  dsimp only
  rw [hc]

theorem update_paraphrase_truncates_witness :
    stA.selection = some ("x ", "old big", " y") ∧
    correct_spelling nlpA.correction "old big".data = .ok "ok ok".data ∧
    (update_paraphrase nlpA stA =
        .ok { stA with
              paraphraseText :=
                "x " ++ String.join ((middle_entries (pySplitS "old big")
                    (pySplitS (paraphrase_sentence nlpA "old big"))
                    ((pySplit "ok ok".data).map String.mk)).map
                  (fun e => e.1 ++ " ")) ++ " y" } ∧
      (middle_entries (pySplitS "old big")
          (pySplitS (paraphrase_sentence nlpA "old big"))
          ((pySplit "ok ok".data).map String.mk)).map Prod.fst =
        (pySplitS (paraphrase_sentence nlpA "old big")).take
          (min (pySplitS "old big").length
            (min (pySplitS (paraphrase_sentence nlpA "old big")).length
              ((pySplit "ok ok".data).map String.mk).length))) :=
  ⟨rfl, by decide,
    update_paraphrase_truncates nlpA stA "x " "old big" " y" "ok ok".data
      rfl (by decide)⟩

/-! ## C8: no selection means a silent no-op -/

/-- C8: when no text is selected, the paraphrase action returns the state
unchanged — in particular the paraphrase widget keeps its previous
contents — and no error is raised. -/
theorem update_paraphrase_no_selection (nlp : NLP) (st : EditorState)
    (h : st.selection = none) : update_paraphrase nlp st = .ok st := by
  unfold update_paraphrase
  rw [h]

theorem update_paraphrase_no_selection_witness :
    stB.selection = none ∧ update_paraphrase nlpA stB = .ok stB :=
  ⟨rfl, update_paraphrase_no_selection nlpA stB rfl⟩

/-! ## C10: the handler writes only the paraphrase widget -/

/-- C10: whenever the paraphrase action completes, the contents of the
original-text display and of the corrected-text display are unchanged. -/
theorem update_paraphrase_frame (nlp : NLP) (st st' : EditorState)
    (h : update_paraphrase nlp st = .ok st') :
    st'.originalText = st.originalText ∧ st'.correctedText = st.correctedText := by
  unfold update_paraphrase at h
  rcases hsel : st.selection with _ | ⟨b, sel, a⟩ <;> rw [hsel] at h <;>
    dsimp only at h
  · injection h with h'
    rw [← h']
    exact ⟨rfl, rfl⟩
  · cases hc : correct_spelling nlp.correction sel.data with
    | error e =>
      rw [hc] at h
      exact Except.noConfusion h
    | ok cc =>
      rw [hc] at h
      dsimp only at h
      injection h with h'
      rw [← h']
      exact ⟨rfl, rfl⟩

theorem update_paraphrase_frame_witness :
    update_paraphrase nlpA stA = .ok stA' ∧
    (stA'.originalText = stA.originalText ∧
      stA'.correctedText = stA.correctedText) :=
  ⟨by decide, update_paraphrase_frame nlpA stA stA' (by decide)⟩

end TextEditor
